import Mathlib

/-!
Verification of the freestanding libfdt environment layer
(`src/kernel/fdt/libfdt_env.h`).

The header provides fixed-width integer typedefs, big-endian wire-word
typedefs, byte-order conversion macros, and a minimal set of string and
memory primitives.  This file gives a shallow embedding of those
definitions and proves the specified properties about them.

Machine integers are modelled as `Nat` with explicit bounds `x < 2 ^ w`
where the width matters.  Memory buffers are modelled as functions
`Nat → Nat` from byte offset to byte value; character strings that are
parsed are modelled as `List Char`.
-/

/-- Host byte order, the compile-time condition `__BYTE_ORDER__ ==
__ORDER_LITTLE_ENDIAN__` governing which branch of the conversion macros
is selected. -/
inductive ByteOrder where
  | little : ByteOrder
  | big : ByteOrder
deriving DecidableEq

/-- Model of `__builtin_bswap16` on a 16-bit value: swap the two bytes. -/
def bswap16 (x : Nat) : Nat :=
  x % 256 * 256 + x / 256 % 256

/-- Model of `__builtin_bswap32` on a 32-bit value: reverse the four bytes. -/
def bswap32 (x : Nat) : Nat :=
  x % 256 * 2 ^ 24 + x / 2 ^ 8 % 256 * 2 ^ 16 + x / 2 ^ 16 % 256 * 2 ^ 8 +
    x / 2 ^ 24 % 256

/-- Model of `__builtin_bswap64` on a 64-bit value: reverse the eight bytes. -/
def bswap64 (x : Nat) : Nat :=
  x % 256 * 2 ^ 56 + x / 2 ^ 8 % 256 * 2 ^ 48 + x / 2 ^ 16 % 256 * 2 ^ 40 +
    x / 2 ^ 24 % 256 * 2 ^ 32 + x / 2 ^ 32 % 256 * 2 ^ 24 +
    x / 2 ^ 40 % 256 * 2 ^ 16 + x / 2 ^ 48 % 256 * 2 ^ 8 + x / 2 ^ 56 % 256

/-- Model of the macro `fdt16_to_cpu`: `__builtin_bswap16` on a
little-endian host, identity otherwise. -/
def fdt16_to_cpu (e : ByteOrder) (x : Nat) : Nat :=
  match e with
  | .little => bswap16 x
  | .big => x

/-- Model of the macro `cpu_to_fdt16`: `__builtin_bswap16` on a
little-endian host, identity otherwise. -/
def cpu_to_fdt16 (e : ByteOrder) (x : Nat) : Nat :=
  match e with
  | .little => bswap16 x
  | .big => x

/-- Model of the macro `fdt32_to_cpu`: `__builtin_bswap32` on a
little-endian host, identity otherwise. -/
def fdt32_to_cpu (e : ByteOrder) (x : Nat) : Nat :=
  match e with
  | .little => bswap32 x
  | .big => x

/-- Model of the macro `cpu_to_fdt32`: `__builtin_bswap32` on a
little-endian host, identity otherwise. -/
def cpu_to_fdt32 (e : ByteOrder) (x : Nat) : Nat :=
  match e with
  | .little => bswap32 x
  | .big => x

/-- Model of the macro `fdt64_to_cpu`: `__builtin_bswap64` on a
little-endian host, identity otherwise. -/
def fdt64_to_cpu (e : ByteOrder) (x : Nat) : Nat :=
  match e with
  | .little => bswap64 x
  | .big => x

/-- Model of the macro `cpu_to_fdt64`: `__builtin_bswap64` on a
little-endian host, identity otherwise. -/
def cpu_to_fdt64 (e : ByteOrder) (x : Nat) : Nat :=
  match e with
  | .little => bswap64 x
  | .big => x

/-- Little-endian byte decomposition of a value: byte `i` of `x`, for
`i < w`.  Used only to state the specification's phrase "the full
reversal of the value's bytes". -/
def toBytesLE (w x : Nat) : List Nat :=
  (List.range w).map (fun i => x / 2 ^ (8 * i) % 256)

/-- Reassemble a little-endian byte list into a value. -/
def fromBytesLE (l : List Nat) : Nat :=
  l.foldr (fun b acc => b + 256 * acc) 0

/-- Specification-side definition: the value whose bytes are the full
reversal of the bytes of `x` viewed as a `w`-byte value.  This follows
the spec's words, to be compared with the byte-swap taken from the
source. -/
def byteReverse (w x : Nat) : Nat :=
  fromBytesLE ((toBytesLE w x).reverse)

/-- Maximum value of the C type `unsigned long`, the 64-bit result width
of `strtoul` in this environment. -/
def ULONG_MAX : Nat := 2 ^ 64 - 1

/-- Numeric value of a digit character for bases up to 36: decimal
digits, then `a`-`z` and `A`-`Z` as 10 to 35. -/
def digitVal (c : Char) : Option Nat :=
  if '0' ≤ c ∧ c ≤ '9' then some (c.toNat - Char.toNat '0')
  else if 'a' ≤ c ∧ c ≤ 'z' then some (c.toNat - Char.toNat 'a' + 10)
  else if 'A' ≤ c ∧ c ≤ 'Z' then some (c.toNat - Char.toNat 'A' + 10)
  else none

/-- Is `c` a digit whose value is valid in the radix. -/
def isDigitIn (radix : Nat) (c : Char) : Bool :=
  match digitVal c with
  | some v => v < radix
  | none => false

/-- Digit values of the longest leading run of characters valid in the
radix: the digit sequence the numeric parser consumes. -/
def scanDigits (radix : Nat) : List Char → List Nat
  | [] => []
  | c :: cs =>
    match digitVal c with
    | some v => if v < radix then v :: scanDigits radix cs else []
    | none => []

/-- Number of characters of a leading `0x`/`0X` radix marker that is
followed by a hexadecimal digit: 2 when present, otherwise 0. -/
def hexSkip (s : List Char) : Nat :=
  match s with
  | '0' :: c :: d :: _ =>
    if (c = 'x' ∨ c = 'X') ∧ isDigitIn 16 d then 2 else 0
  | _ => 0

/-- Effective radix chosen by the numeric parser: base 0 auto-detects 16
from a `0x` marker and 8 from a leading `0`, defaulting to 10; any other
base is used as given. -/
def effRadix (s : List Char) (base : Nat) : Nat :=
  if base = 0 then
    if hexSkip s = 2 then 16
    else
      match s with
      | '0' :: _ => 8
      | _ => 10
  else base

/-- Number of marker characters consumed before the digits begin. -/
def skipLen (s : List Char) (base : Nat) : Nat :=
  if base = 0 then hexSkip s else 0

/-- One accumulation step of the numeric parser, saturating at
`ULONG_MAX`. -/
def satStep (radix acc d : Nat) : Nat :=
  min (acc * radix + d) ULONG_MAX

/-- Value denoted by a digit-value sequence in the radix, without any
saturation. -/
def digitsVal (radix : Nat) (ds : List Nat) : Nat :=
  ds.foldl (fun acc d => acc * radix + d) 0

/-- Modelled from the spec: `strtoul` is declared `extern` in the header
and implemented outside the given sources (in `c_compat.zig`), so its
behavior is taken from the specification of `parse_unsigned`: base 0
auto-detects the radix from a `0x`/`0` marker, there is no whitespace or
sign handling, parsing stops at the first character that is not a valid
digit in the radix, overflow saturates to the maximum of the result
width, and an empty digit sequence yields zero with the end cursor left
at the starting position.  The result pairs the parsed value with the
offset one past the last consumed character (what `*endp` is set to). -/
def strtoul (s : List Char) (base : Nat) : Nat × Nat :=
  let r := effRadix s base
  let p := skipLen s base
  let ds := scanDigits r (s.drop p)
  if ds = [] then (0, 0)
  else (ds.foldl (satStep r) 0, p + ds.length)

/-- Modelled from the spec: `strnlen` is declared `extern` in the header
and implemented outside the given sources (in `c_compat.zig`), so its
behavior is taken from the specification of `bounded_length`.
`strnlenFrom mem i n` counts the bytes before the first zero byte of the
memory `mem`, scanning at most `n` bytes starting at offset `i`. -/
def strnlenFrom (mem : Nat → Nat) (i : Nat) : Nat → Nat
  | 0 => 0
  | n + 1 => if mem i = 0 then 0 else 1 + strnlenFrom mem (i + 1) n

/-- Modelled from the spec: `strnlen mem maxlen` scans at most `maxlen`
bytes of `mem` for a terminator and returns `maxlen` when none occurs
within that bound. -/
def strnlen (mem : Nat → Nat) (maxlen : Nat) : Nat :=
  strnlenFrom mem 0 maxlen

/-- Model of `memchr`, which the header binds to `__builtin_memchr`,
the ISO C `memchr`.  `memchrFrom buf v i n` scans `n` bytes of `buf`
starting at offset `i` for the byte value `v`. -/
def memchrFrom (buf : Nat → Nat) (v i : Nat) : Nat → Option Nat
  | 0 => none
  | n + 1 => if buf i = v then some i else memchrFrom buf v (i + 1) n

/-- Model of `memchr buf v n`: the offset of the first occurrence of the
byte value `v` within the first `n` bytes of `buf`, or `none`, the model
of the null-pointer not-found sentinel. -/
def memchr (buf : Nat → Nat) (v n : Nat) : Option Nat :=
  memchrFrom buf v 0 n

/-- Model of the C type `uint16_t` (`typedef unsigned short uint16_t`):
the 16-bit unsigned values.  For the wire-word typedef claims the width
must be part of the type, so these three host types carry their width. -/
abbrev uint16_t := Fin (2 ^ 16)

/-- Model of the C type `uint32_t` (`typedef unsigned int uint32_t`). -/
abbrev uint32_t := Fin (2 ^ 32)

/-- Model of the C type `uint64_t`
(`typedef unsigned long long uint64_t`). -/
abbrev uint64_t := Fin (2 ^ 64)

/-- Model of `typedef uint16_t fdt16_t`: a C typedef introduces an alias
for the existing type, not a new distinct type, so the faithful
translation is an abbreviation. -/
abbrev fdt16_t := uint16_t

/-- Model of `typedef uint32_t fdt32_t`, an alias as above. -/
abbrev fdt32_t := uint32_t

/-- Model of `typedef uint64_t fdt64_t`, an alias as above. -/
abbrev fdt64_t := uint64_t

/-- Form in which the header provides a string/memory name: as a
preprocessor definition substituting a compiler builtin for the name, or
as an ordinary named `extern` function. -/
inductive DeclForm where
  | substitutedBuiltin : DeclForm
  | externFunction : DeclForm
deriving DecidableEq

/-- The string/memory names the header provides and the form each one
takes, transcribed from the `#define` lines 40 to 50 and the `extern`
declarations of lines 53 to 55 of `libfdt_env.h`. -/
def envStringMemDecls : List (String × DeclForm) :=
  [("memcpy", DeclForm.substitutedBuiltin),
   ("memset", DeclForm.substitutedBuiltin),
   ("memmove", DeclForm.substitutedBuiltin),
   ("memcmp", DeclForm.substitutedBuiltin),
   ("memchr", DeclForm.substitutedBuiltin),
   ("strlen", DeclForm.substitutedBuiltin),
   ("strncmp", DeclForm.substitutedBuiltin),
   ("strchr", DeclForm.substitutedBuiltin),
   ("strnlen", DeclForm.externFunction),
   ("strrchr", DeclForm.externFunction),
   ("strtoul", DeclForm.externFunction)]

theorem bswap16_eval (a b : Nat) (ha : a < 256) (hb : b < 256) :
    bswap16 (a + b * 2 ^ 8) = b + a * 2 ^ 8 := by
  simp only [bswap16]
  omega

theorem bswap32_eval (a b c d : Nat) (ha : a < 256) (hb : b < 256)
    (hc : c < 256) (hd : d < 256) :
    bswap32 (a + b * 2 ^ 8 + c * 2 ^ 16 + d * 2 ^ 24) =
      d + c * 2 ^ 8 + b * 2 ^ 16 + a * 2 ^ 24 := by
  simp only [bswap32]
  omega

theorem bswap64_eval (a b c d e f g k : Nat) (ha : a < 256) (hb : b < 256)
    (hc : c < 256) (hd : d < 256) (he : e < 256) (hf : f < 256)
    (hg : g < 256) (hk : k < 256) :
    bswap64 (a + b * 2 ^ 8 + c * 2 ^ 16 + d * 2 ^ 24 + e * 2 ^ 32 +
        f * 2 ^ 40 + g * 2 ^ 48 + k * 2 ^ 56) =
      k + g * 2 ^ 8 + f * 2 ^ 16 + e * 2 ^ 24 + d * 2 ^ 32 + c * 2 ^ 40 +
        b * 2 ^ 48 + a * 2 ^ 56 := by
  simp only [bswap64]
  omega

theorem exists_bytes2 (x : Nat) (h : x < 2 ^ 16) :
    ∃ a b, a < 256 ∧ b < 256 ∧ x = a + b * 2 ^ 8 :=
  ⟨x % 2 ^ 8, x / 2 ^ 8, by omega, by omega, by omega⟩

theorem exists_bytes4 (x : Nat) (h : x < 2 ^ 32) :
    ∃ a b c d, a < 256 ∧ b < 256 ∧ c < 256 ∧ d < 256 ∧
      x = a + b * 2 ^ 8 + c * 2 ^ 16 + d * 2 ^ 24 :=
  ⟨x % 2 ^ 8, x / 2 ^ 8 % 2 ^ 8, x / 2 ^ 16 % 2 ^ 8, x / 2 ^ 24,
    by omega, by omega, by omega, by omega, by omega⟩

theorem exists_bytes8 (x : Nat) (h : x < 2 ^ 64) :
    ∃ a b c d e f g k, a < 256 ∧ b < 256 ∧ c < 256 ∧ d < 256 ∧ e < 256 ∧
      f < 256 ∧ g < 256 ∧ k < 256 ∧
      x = a + b * 2 ^ 8 + c * 2 ^ 16 + d * 2 ^ 24 + e * 2 ^ 32 +
        f * 2 ^ 40 + g * 2 ^ 48 + k * 2 ^ 56 :=
  ⟨x % 2 ^ 8, x / 2 ^ 8 % 2 ^ 8, x / 2 ^ 16 % 2 ^ 8, x / 2 ^ 24 % 2 ^ 8,
    x / 2 ^ 32 % 2 ^ 8, x / 2 ^ 40 % 2 ^ 8, x / 2 ^ 48 % 2 ^ 8, x / 2 ^ 56,
    by omega, by omega, by omega, by omega, by omega, by omega, by omega,
    by omega, by omega⟩

theorem bswap16_involutive (x : Nat) (h : x < 2 ^ 16) :
    bswap16 (bswap16 x) = x := by
  obtain ⟨a, b, ha, hb, rfl⟩ := exists_bytes2 x h
  rw [bswap16_eval a b ha hb, bswap16_eval b a hb ha]

theorem bswap32_involutive (x : Nat) (h : x < 2 ^ 32) :
    bswap32 (bswap32 x) = x := by
  obtain ⟨a, b, c, d, ha, hb, hc, hd, rfl⟩ := exists_bytes4 x h
  rw [bswap32_eval a b c d ha hb hc hd, bswap32_eval d c b a hd hc hb ha]

theorem bswap64_involutive (x : Nat) (h : x < 2 ^ 64) :
    bswap64 (bswap64 x) = x := by
  obtain ⟨a, b, c, d, e, f, g, k, ha, hb, hc, hd, he, hf, hg, hk, rfl⟩ :=
    exists_bytes8 x h
  rw [bswap64_eval a b c d e f g k ha hb hc hd he hf hg hk,
    bswap64_eval k g f e d c b a hk hg hf he hd hc hb ha]

theorem bswap16_eq_byteReverse (x : Nat) : bswap16 x = byteReverse 2 x := by
  simp only [bswap16, byteReverse, toBytesLE, fromBytesLE, List.range_succ,
    List.range_zero, List.map_append, List.map_cons, List.map_nil,
    List.reverse_append, List.reverse_cons, List.reverse_nil,
    List.nil_append, List.cons_append, List.foldr_cons, List.foldr_nil,
    List.append_nil, Nat.reduceMul, Nat.reducePow]
  omega

theorem bswap32_eq_byteReverse (x : Nat) : bswap32 x = byteReverse 4 x := by
  simp only [bswap32, byteReverse, toBytesLE, fromBytesLE, List.range_succ,
    List.range_zero, List.map_append, List.map_cons, List.map_nil,
    List.reverse_append, List.reverse_cons, List.reverse_nil,
    List.nil_append, List.cons_append, List.foldr_cons, List.foldr_nil,
    List.append_nil, Nat.reduceMul, Nat.reducePow]
  omega

theorem bswap64_eq_byteReverse (x : Nat) : bswap64 x = byteReverse 8 x := by
  simp only [bswap64, byteReverse, toBytesLE, fromBytesLE, List.range_succ,
    List.range_zero, List.map_append, List.map_cons, List.map_nil,
    List.reverse_append, List.reverse_cons, List.reverse_nil,
    List.nil_append, List.cons_append, List.foldr_cons, List.foldr_nil,
    List.append_nil, Nat.reduceMul, Nat.reducePow]
  omega

/-- C1: for every 16-bit value, every 32-bit value and every 64-bit
value, the to-host and to-wire conversions of the matching width are
mutual inverses, on either host byte order. -/
theorem fdt_conversions_mutual_inverses (e : ByteOrder) (x16 x32 x64 : Nat)
    (h16 : x16 < 2 ^ 16) (h32 : x32 < 2 ^ 32) (h64 : x64 < 2 ^ 64) :
    fdt16_to_cpu e (cpu_to_fdt16 e x16) = x16 ∧
    cpu_to_fdt16 e (fdt16_to_cpu e x16) = x16 ∧
    fdt32_to_cpu e (cpu_to_fdt32 e x32) = x32 ∧
    cpu_to_fdt32 e (fdt32_to_cpu e x32) = x32 ∧
    fdt64_to_cpu e (cpu_to_fdt64 e x64) = x64 ∧
    cpu_to_fdt64 e (fdt64_to_cpu e x64) = x64 := by
  cases e
  · exact ⟨bswap16_involutive x16 h16, bswap16_involutive x16 h16,
      bswap32_involutive x32 h32, bswap32_involutive x32 h32,
      bswap64_involutive x64 h64, bswap64_involutive x64 h64⟩
  · exact ⟨rfl, rfl, rfl, rfl, rfl, rfl⟩

/-- Witness for C1: the involution evaluated at concrete inputs on a
little-endian host. -/
theorem fdt_conversions_mutual_inverses_witness :
    fdt16_to_cpu ByteOrder.little (cpu_to_fdt16 ByteOrder.little 0xBEEF) =
      0xBEEF ∧
    fdt32_to_cpu ByteOrder.little (cpu_to_fdt32 ByteOrder.little 0xDEADBEEF) =
      0xDEADBEEF ∧
    fdt64_to_cpu ByteOrder.little
      (cpu_to_fdt64 ByteOrder.little 0x0123456789ABCDEF) =
      0x0123456789ABCDEF :=
  ⟨(fdt_conversions_mutual_inverses ByteOrder.little 0xBEEF 0xDEADBEEF
      0x0123456789ABCDEF (by decide) (by decide) (by decide)).1,
   (fdt_conversions_mutual_inverses ByteOrder.little 0xBEEF 0xDEADBEEF
      0x0123456789ABCDEF (by decide) (by decide) (by decide)).2.2.1,
   (fdt_conversions_mutual_inverses ByteOrder.little 0xBEEF 0xDEADBEEF
      0x0123456789ABCDEF (by decide) (by decide) (by decide)).2.2.2.2.1⟩

/-- C2: on a big-endian host every conversion is the identity on its
argument; on a little-endian host every conversion returns the value
whose bytes are the full reversal of the argument's bytes at the
operation's width. -/
theorem fdt_conversions_endian_behavior (x16 x32 x64 : Nat)
    (h16 : x16 < 2 ^ 16) (h32 : x32 < 2 ^ 32) (h64 : x64 < 2 ^ 64) :
    (fdt16_to_cpu ByteOrder.big x16 = x16 ∧
     cpu_to_fdt16 ByteOrder.big x16 = x16 ∧
     fdt32_to_cpu ByteOrder.big x32 = x32 ∧
     cpu_to_fdt32 ByteOrder.big x32 = x32 ∧
     fdt64_to_cpu ByteOrder.big x64 = x64 ∧
     cpu_to_fdt64 ByteOrder.big x64 = x64) ∧
    (fdt16_to_cpu ByteOrder.little x16 = byteReverse 2 x16 ∧
     cpu_to_fdt16 ByteOrder.little x16 = byteReverse 2 x16 ∧
     fdt32_to_cpu ByteOrder.little x32 = byteReverse 4 x32 ∧
     cpu_to_fdt32 ByteOrder.little x32 = byteReverse 4 x32 ∧
     fdt64_to_cpu ByteOrder.little x64 = byteReverse 8 x64 ∧
     cpu_to_fdt64 ByteOrder.little x64 = byteReverse 8 x64) :=
  ⟨⟨rfl, rfl, rfl, rfl, rfl, rfl⟩,
   bswap16_eq_byteReverse x16, bswap16_eq_byteReverse x16,
   bswap32_eq_byteReverse x32, bswap32_eq_byteReverse x32,
   bswap64_eq_byteReverse x64, bswap64_eq_byteReverse x64⟩

/-- Witness for C2: endian behavior evaluated at a concrete 16-bit and
32-bit input, with the byte reversal computed out. -/
theorem fdt_conversions_endian_behavior_witness :
    fdt16_to_cpu ByteOrder.big 0xBEEF = 0xBEEF ∧
    fdt16_to_cpu ByteOrder.little 0xBEEF = byteReverse 2 0xBEEF ∧
    byteReverse 2 0xBEEF = 0xEFBE ∧
    fdt32_to_cpu ByteOrder.little 0x11223344 = byteReverse 4 0x11223344 ∧
    byteReverse 4 0x11223344 = 0x44332211 :=
  ⟨(fdt_conversions_endian_behavior 0xBEEF 0x11223344 0
      (by decide) (by decide) (by decide)).1.1,
   (fdt_conversions_endian_behavior 0xBEEF 0x11223344 0
      (by decide) (by decide) (by decide)).2.1,
   by decide,
   (fdt_conversions_endian_behavior 0xBEEF 0x11223344 0
      (by decide) (by decide) (by decide)).2.2.2.1,
   by decide⟩

/-- C10: at each width the to-host and the to-wire conversion are the
very same function, pointwise equal on every argument, on either host
byte order. -/
theorem fdt_to_cpu_eq_cpu_to_fdt (e : ByteOrder) (x : Nat) :
    fdt16_to_cpu e x = cpu_to_fdt16 e x ∧
    fdt32_to_cpu e x = cpu_to_fdt32 e x ∧
    fdt64_to_cpu e x = cpu_to_fdt64 e x := by
  cases e
  · exact ⟨rfl, rfl, rfl⟩
  · exact ⟨rfl, rfl, rfl⟩

theorem effRadix_pos (s : List Char) (base : Nat) : 1 ≤ effRadix s base := by
  simp only [effRadix]
  split
  · split
    · omega
    · split <;> omega
  · omega

theorem foldl_satStep_min (r : Nat) (hr : 1 ≤ r) :
    ∀ (ds : List Nat) (acc : Nat),
      List.foldl (satStep r) (min acc ULONG_MAX) ds =
        min (List.foldl (fun a d => a * r + d) acc ds) ULONG_MAX
  | [], acc => by simp
  | d :: ds, acc => by
    simp only [List.foldl_cons]
    have hstep : satStep r (min acc ULONG_MAX) d =
        min (acc * r + d) ULONG_MAX := by
      rcases Nat.le_total acc ULONG_MAX with h1 | h1
      · simp only [satStep, Nat.min_eq_left h1]
      · simp only [satStep, Nat.min_eq_right h1]
        have h2 : acc * 1 ≤ acc * r := Nat.mul_le_mul_left acc hr
        have h3 : ULONG_MAX * 1 ≤ ULONG_MAX * r :=
          Nat.mul_le_mul_left ULONG_MAX hr
        omega
    rw [hstep, foldl_satStep_min r hr ds (acc * r + d)]

/-- C3: when the digit sequence consumed by `strtoul` denotes a value
exceeding the maximum of the result width, the result saturates to that
maximum, `ULONG_MAX`, and never wraps to a small value. -/
theorem strtoul_saturates (s : List Char) (base : Nat)
    (hov : ULONG_MAX < digitsVal (effRadix s base)
        (scanDigits (effRadix s base) (s.drop (skipLen s base)))) :
    (strtoul s base).1 = ULONG_MAX := by
  have hr := effRadix_pos s base
  have hne : scanDigits (effRadix s base) (s.drop (skipLen s base)) ≠ [] := by
    intro h0
    rw [h0] at hov
    simp [digitsVal] at hov
  have key := foldl_satStep_min (effRadix s base) hr
    (scanDigits (effRadix s base) (s.drop (skipLen s base))) 0
  rw [Nat.min_eq_left (Nat.zero_le ULONG_MAX)] at key
  simp only [strtoul]
  rw [if_neg hne]
  show List.foldl (satStep (effRadix s base)) 0
      (scanDigits (effRadix s base) (List.drop (skipLen s base) s)) =
    ULONG_MAX
  rw [key]
  exact Nat.min_eq_right (Nat.le_of_lt hov)

/-- Witness for C3: a twenty-digit decimal literal denoting `2 ^ 64`,
one past the maximum of the result width, parses to `ULONG_MAX`. -/
theorem strtoul_saturates_witness :
    (strtoul ['1', '8', '4', '4', '6', '7', '4', '4', '0', '7', '3', '7',
      '0', '9', '5', '5', '1', '6', '1', '6'] 10).1 = ULONG_MAX :=
  strtoul_saturates ['1', '8', '4', '4', '6', '7', '4', '4', '0', '7',
    '3', '7', '0', '9', '5', '5', '1', '6', '1', '6'] 10 (by decide)

/-- C4: when the input has no valid digit at the start in the chosen
radix (an empty digit sequence), `strtoul` returns zero and leaves the
end cursor at the original starting position. -/
theorem strtoul_empty_digits (s : List Char) (base : Nat)
    (h : scanDigits (effRadix s base) (s.drop (skipLen s base)) = []) :
    strtoul s base = (0, 0) := by
  simp only [strtoul]
  rw [if_pos h]

/-- Witness for C4: the empty string with base 10 parses to zero with
the end cursor left at the start. -/
theorem strtoul_empty_digits_witness : strtoul [] 10 = (0, 0) :=
  strtoul_empty_digits [] 10 (by decide)

/-- C5: `strtoul` on the string `0x1A` with base 0 auto-detects the
hexadecimal radix from the `0x` marker, returns 26, and sets the end
cursor just past the final digit. -/
theorem strtoul_hex_autodetect :
    strtoul ['0', 'x', '1', 'A'] 0 = (26, 4) := by
  decide

theorem strnlenFrom_all_nonzero (mem : Nat → Nat) :
    ∀ (n i : Nat), (∀ j, j < n → mem (i + j) ≠ 0) → strnlenFrom mem i n = n
  | 0, i, _ => rfl
  | n + 1, i, h => by
    have h0 : mem i ≠ 0 := by
      have := h 0 (Nat.succ_pos n)
      simpa using this
    have ih := strnlenFrom_all_nonzero mem n (i + 1) (fun j hj => by
      have := h (j + 1) (by omega)
      rw [show i + 1 + j = i + (j + 1) by omega]
      exact this)
    simp only [strnlenFrom, if_neg h0]
    omega

theorem strnlenFrom_congr (mem mem2 : Nat → Nat) :
    ∀ (n i : Nat), (∀ j, j < n → mem2 (i + j) = mem (i + j)) →
      strnlenFrom mem2 i n = strnlenFrom mem i n
  | 0, _, _ => rfl
  | n + 1, i, h => by
    have h0 : mem2 i = mem i := by
      have := h 0 (Nat.succ_pos n)
      simpa using this
    have ih := strnlenFrom_congr mem mem2 n (i + 1) (fun j hj => by
      rw [show i + 1 + j = i + (j + 1) by omega]
      exact h (j + 1) (by omega))
    simp only [strnlenFrom, h0, ih]

/-- C6: when no zero byte occurs within the first `maxlen` bytes of the
memory, `strnlen` returns exactly `maxlen`; and `strnlen` never reads a
byte beyond that bound: its result depends only on the first `maxlen`
bytes of the memory. -/
theorem strnlen_spec (mem mem2 : Nat → Nat) (maxlen : Nat) :
    ((∀ i, i < maxlen → mem i ≠ 0) → strnlen mem maxlen = maxlen) ∧
    ((∀ i, i < maxlen → mem2 i = mem i) →
      strnlen mem2 maxlen = strnlen mem maxlen) := by
  constructor
  · intro h
    exact strnlenFrom_all_nonzero mem maxlen 0 (fun j hj => by
      simpa using h j hj)
  · intro h
    exact strnlenFrom_congr mem mem2 maxlen 0 (fun j hj => by
      simpa using h j hj)

/-- Witness for C6: a three-byte memory with no terminator has bounded
length exactly 3, and changing the memory only from offset 3 on does not
change the result. -/
theorem strnlen_spec_witness :
    strnlen (fun i => i + 1) 3 = 3 ∧
    strnlen (fun i => if i < 3 then i + 1 else 0) 3 =
      strnlen (fun i => i + 1) 3 :=
  ⟨(strnlen_spec (fun i => i + 1) (fun i => if i < 3 then i + 1 else 0)
      3).1 (fun i _ => Nat.succ_ne_zero i),
   (strnlen_spec (fun i => i + 1) (fun i => if i < 3 then i + 1 else 0)
      3).2 (fun i hi => by rw [if_pos hi])⟩

theorem memchrFrom_some (buf : Nat → Nat) (v : Nat) :
    ∀ (n i j : Nat), memchrFrom buf v i n = some j →
      i ≤ j ∧ j < i + n ∧ buf j = v ∧ ∀ t, i ≤ t → t < j → buf t ≠ v
  | 0, i, j, h => by simp [memchrFrom] at h
  | n + 1, i, j, h => by
    by_cases h0 : buf i = v
    · simp only [memchrFrom, if_pos h0, Option.some.injEq] at h
      subst h
      exact ⟨Nat.le_refl i, by omega, h0, fun t ht1 ht2 =>
        absurd (Nat.lt_of_le_of_lt ht1 ht2) (Nat.lt_irrefl i)⟩
    · simp only [memchrFrom, if_neg h0] at h
      obtain ⟨h1, h2, h3, h4⟩ := memchrFrom_some buf v n (i + 1) j h
      refine ⟨by omega, by omega, h3, fun t ht1 ht2 => ?_⟩
      rcases Nat.eq_or_lt_of_le ht1 with rfl | ht
      · exact h0
      · exact h4 t (by omega) ht2

theorem memchrFrom_none (buf : Nat → Nat) (v : Nat) :
    ∀ (n i : Nat),
      memchrFrom buf v i n = none ↔ ∀ t, i ≤ t → t < i + n → buf t ≠ v
  | 0, i => by
    simp only [memchrFrom, true_iff]
    intro t h1 h2
    omega
  | n + 1, i => by
    constructor
    · intro h t ht1 ht2
      by_cases h0 : buf i = v
      · simp only [memchrFrom, if_pos h0] at h
        exact absurd h (Option.some_ne_none i)
      · simp only [memchrFrom, if_neg h0] at h
        rcases Nat.eq_or_lt_of_le ht1 with rfl | ht
        · exact h0
        · exact (memchrFrom_none buf v n (i + 1)).1 h t (by omega) (by omega)
    · intro h
      have h0 : buf i ≠ v := h i (Nat.le_refl i) (by omega)
      simp only [memchrFrom, if_neg h0]
      exact (memchrFrom_none buf v n (i + 1)).2
        (fun t ht1 ht2 => h t (by omega) (by omega))

/-- C7: `memchr` reports the offset of the first occurrence of the byte
value within the first `n` bytes of the buffer, and reports the
distinguished not-found sentinel `none` — never a valid offset — exactly
when the value does not occur in those bytes. -/
theorem memchr_spec (buf : Nat → Nat) (v n : Nat) :
    (∀ j, memchr buf v n = some j →
      j < n ∧ buf j = v ∧ ∀ t, t < j → buf t ≠ v) ∧
    (memchr buf v n = none ↔ ∀ t, t < n → buf t ≠ v) := by
  constructor
  · intro j h
    obtain ⟨h1, h2, h3, h4⟩ := memchrFrom_some buf v n 0 j h
    exact ⟨by omega, h3, fun t ht => h4 t (Nat.zero_le t) ht⟩
  · constructor
    · intro h t ht
      exact (memchrFrom_none buf v n 0).1 h t (Nat.zero_le t) (by omega)
    · intro h
      exact (memchrFrom_none buf v n 0).2 (fun t _ ht2 => h t (by omega))

/-- Witness for C7: in a buffer holding the even numbers, the value 4 is
first found at offset 2 among the first five bytes, and the value 9,
which does not occur, yields the `none` sentinel. -/
theorem memchr_spec_witness :
    (2 < 5 ∧ (fun j => j * 2) 2 = 4 ∧
      ∀ t, t < 2 → (fun j => j * 2) t ≠ 4) ∧
    (memchr (fun j => j * 2) 9 5 = none ↔
      ∀ t, t < 5 → (fun j => j * 2) t ≠ 9) :=
  ⟨(memchr_spec (fun j => j * 2) 4 5).1 2 (by decide),
   (memchr_spec (fun j => j * 2) 9 5).2⟩

/-- C8 counterexample: the header's `typedef uint16_t fdt16_t` and its
32- and 64-bit analogues introduce aliases, not distinct wrapper types:
each wire-word type is the very same type as its host integer type of
matching width, and a concrete wire word takes part in arithmetic
against a host-native integer with no conversion call at all. -/
theorem fdt_wire_types_counterexample :
    (fdt16_t = uint16_t) ∧ (fdt32_t = uint32_t) ∧ (fdt64_t = uint64_t) ∧
    (⟨5, by decide⟩ : fdt16_t) + (⟨3, by decide⟩ : uint16_t) =
      (⟨8, by decide⟩ : uint16_t) :=
  ⟨rfl, rfl, rfl, by decide⟩

/-- C8 amended: the wire-word types `fdt16_t`, `fdt32_t` and `fdt64_t`
are typedef aliases of the host unsigned integer types of matching
width — the same type, not a distinct single-field wrapper — so every
wire word participates directly in arithmetic and comparison against
host-native integers, and the types force no conversion call. -/
theorem fdt_wire_types_are_aliases :
    (fdt16_t = uint16_t) ∧ (fdt32_t = uint32_t) ∧ (fdt64_t = uint64_t) ∧
    (∀ (x : fdt16_t) (y : uint16_t), x + y = y + x ∧ (x ≤ y ∨ y ≤ x)) :=
  ⟨rfl, rfl, rfl, fun x y =>
    ⟨Fin.ext (by simp only [Fin.add_def]; rw [Nat.add_comm]),
     Nat.le_total x.val y.val⟩⟩

/-- C9 counterexample: `memcpy` — the `copy` primitive — is provided by
the header as a preprocessor name substitution onto a compiler builtin
(global textual substitution), not as an ordinary named function, so its
declaration form differs from an `extern` function's. -/
theorem env_decls_counterexample :
    envStringMemDecls.lookup ("memcpy") = some DeclForm.substitutedBuiltin ∧
    DeclForm.substitutedBuiltin ≠ DeclForm.externFunction := by
  decide

/-- C9 amended: the header provides the eight string/memory primitives
`memcpy`, `memset`, `memmove`, `memcmp`, `memchr`, `strlen`, `strncmp`
and `strchr` by global textual substitution onto compiler builtins,
while only `strnlen`, `strrchr` and `strtoul` are ordinary named
`extern` functions. -/
theorem env_decls_forms :
    (∀ n ∈ [("memcpy" : String), ("memset"), ("memmove"), ("memcmp"),
        ("memchr"), ("strlen"), ("strncmp"), ("strchr")],
      envStringMemDecls.lookup n = some DeclForm.substitutedBuiltin) ∧
    (∀ n ∈ [("strnlen" : String), ("strrchr"), ("strtoul")],
      envStringMemDecls.lookup n = some DeclForm.externFunction) := by
  decide

/-- Witness for C9: the recorded declaration forms evaluated at two
concrete names. -/
theorem env_decls_forms_witness :
    envStringMemDecls.lookup ("memset") = some DeclForm.substitutedBuiltin ∧
    envStringMemDecls.lookup ("strnlen") = some DeclForm.externFunction :=
  ⟨env_decls_forms.1 ("memset") (by decide),
   env_decls_forms.2 ("strnlen") (by decide)⟩
